import Mathlib

set_option maxHeartbeats 1000000

namespace NoteWatcher

/- Shallow embedding of the structured-extraction pipeline of
   src/watcher.backup.py.  Text is modelled as `List Char`.  Python's
   `str.strip`/`str.lstrip` remove runs of whitespace characters; we model
   the ASCII whitespace set.  The backtick and single-quote characters are
   written via `Char.ofNat` (code points 96 and 39). -/

def bq : Char := Char.ofNat 96

def sq : Char := Char.ofNat 39

def pyIsSpace (c : Char) : Bool :=
  decide (c = ' ') || decide (c = '\t') || decide (c = '\n') || decide (c = '\r') ||
  decide (c = Char.ofNat 11) || decide (c = Char.ofNat 12)

def pyLStrip (t : List Char) : List Char := t.dropWhile pyIsSpace

def pyRStrip (t : List Char) : List Char := (t.reverse.dropWhile pyIsSpace).reverse

def pyStrip (t : List Char) : List Char := pyRStrip (pyLStrip t)

/- `text.find(ch)` of Python: index of the first occurrence, if any. -/
def pyFind : List Char → Char → Option Nat
  | [], _ => none
  | c :: rest, target =>
    if c = target then some 0 else (pyFind rest target).map (· + 1)

/- The triple-backtick fence delimiter. -/
def fence3 : List Char := [bq, bq, bq]

/- Index of the first position where a triple backtick starts. -/
def findFence : List Char → Option Nat
  | [] => none
  | c :: rest =>
    if (c :: rest).take 3 = fence3 then some 0 else (findFence rest).map (· + 1)

/- The optional case-insensitive `json` tag right after the opening fence. -/
def isJsonTag (l : List Char) : Bool :=
  decide ((l.take 4).map Char.toLower = ['j', 's', 'o', 'n'])

/- `strip_code_fences` (watcher.backup.py line 31): the regex
   ` ```(?:json)?\s*([\s\S]*?)``` ` with IGNORECASE, taking `group(1).strip()`
   of the first match, else the input unchanged.  The leftmost match starts at
   the first triple backtick; the optional tag `json` is consumed when present
   (its letters are not backticks, so consuming it never changes whether, or
   where, a closing fence is found); the greedy `\s*` eats whitespace that the
   final `.strip()` would remove anyway; the lazy group ends at the next triple
   backtick.  If no closing fence follows the first opening fence, no later
   start can match either (any other fence start would itself be a closing
   fence), so the whole search fails and the input is returned unchanged. -/
def fenceBody (t : List Char) (i : Nat) : List Char :=
  if isJsonTag (t.drop (i + 3)) then (t.drop (i + 3)).drop 4 else t.drop (i + 3)

def strip_code_fences (t : List Char) : List Char :=
  match findFence t with
  | none => t
  | some i =>
    match findFence (fenceBody t i) with
    | none => t
    | some m => pyStrip ((fenceBody t i).take m)

/- Scanner state of `extract_balanced_block` (line 41):
   `depth, in_str, esc, quote = 0, False, False, None`. -/
structure ScanSt where
  depth : Int
  instr : Bool
  esc : Bool
  quote : Option Char
deriving DecidableEq

def initSt : ScanSt := ⟨0, false, false, none⟩

/- One loop iteration of `extract_balanced_block` when it does not return:
   the state update for the character `ch`. -/
def stepSt (o c : Char) (st : ScanSt) (ch : Char) : ScanSt :=
  if st.instr then
    if st.esc then { st with esc := false }
    else if ch = '\\' then { st with esc := true }
    else if some ch = st.quote then { st with instr := false }
    else st
  else
    if ch = '"' ∨ ch = sq then { st with instr := true, quote := some ch }
    else if ch = o then { st with depth := st.depth + 1 }
    else if ch = c then { st with depth := st.depth - 1 }
    else st

/- The loop returns `text[start:i+1]` exactly when, outside a string literal,
   `ch` is the closing bracket (and not a quote and not the opening bracket,
   by the if/elif chain) and the decremented depth reaches zero. -/
def retHere (o c : Char) (st : ScanSt) (ch : Char) : Bool :=
  !st.instr && !(decide (ch = '"') || decide (ch = sq)) &&
    !decide (ch = o) && decide (ch = c) && decide (st.depth - 1 = 0)

/- The scan loop: returns the index (relative base `i`) at which the balanced
   block closes, or `none` when the loop runs off the end of the text. -/
def scanFrom (o c : Char) : ScanSt → Nat → List Char → Option Nat
  | _, _, [] => none
  | st, i, ch :: rest =>
    if retHere o c st ch = true then some i
    else scanFrom o c (stepSt o c st ch) (i + 1) rest

/- `extract_balanced_block` (line 36): find the first occurrence of the
   opening character, scan forward, and return the slice through the matching
   close, else `None`. -/
def extract_balanced_block (text : List Char) (o c : Char) : Option (List Char) :=
  match pyFind text o with
  | none => none
  | some start =>
    match scanFrom o c initSt 0 (text.drop start) with
    | none => none
    | some rel => some ((text.drop start).take (rel + 1))

/- `extract_first_json` (line 61).  Python's `a or b` falls through on `None`
   (a block returned by `extract_balanced_block` is never the empty, falsy
   string: it always starts with the opening bracket). -/
def extract_first_json (text : List Char) : Option (List Char) :=
  let cleaned := pyLStrip (strip_code_fences text)
  match extract_balanced_block cleaned '[' ']' with
  | some s => some s
  | none => extract_balanced_block cleaned '{' '}'

/- Parsed JSON values (the result of `json.loads`).  The numeric payload is
   irrelevant to the pipeline and is modelled by an `Int`.  Python dicts are
   modelled by association lists; `json.loads` builds dicts in which a later
   duplicate key overwrites an earlier one, so lookup is last-wins. -/
inductive Json where
  | null : Json
  | bool (b : Bool) : Json
  | num (n : Int) : Json
  | str (s : List Char) : Json
  | arr (elems : List Json) : Json
  | obj (fields : List (List Char × Json)) : Json

/- `dict.get(k, default)`: last binding of the key wins (dict construction
   order), `none` when the key is absent. -/
def lookupLast (k : List Char) : List (List Char × Json) → Option Json
  | [] => none
  | (k', v) :: rest =>
    match lookupLast k rest with
    | some r => some r
    | none => if k' = k then some v else none

def titleKey : List Char := ['t', 'i', 't', 'l', 'e']

def summaryKey : List Char := ['s', 'u', 'm', 'm', 'a', 'r', 'y']

def tagsKey : List Char := ['t', 'a', 'g', 's']

def contentKey : List Char := ['c', 'o', 'n', 't', 'e', 'n', 't']

/- The document built at watcher.backup.py lines 141-148 for one section.
   `time.time()` is an external reading, supplied as the timestamp argument. -/
structure Record where
  filename : List Char
  title : Json
  summary : Json
  tags : Json
  original : Json
  timestamp : Int

def mkRecord (fname : List Char) (t : Int) (fields : List (List Char × Json)) : Record where
  filename := fname
  title := (lookupLast titleKey fields).getD (Json.str [])
  summary := (lookupLast summaryKey fields).getD (Json.str [])
  tags := (lookupLast tagsKey fields).getD (Json.arr [])
  original := (lookupLast contentKey fields).getD (Json.str [])
  timestamp := t

def isObj : Json → Bool
  | Json.obj _ => true
  | _ => false

/- Result of the insert loop (lines 140-148): the records stored, the number
   of `insert_one` calls attempted, and whether an exception propagated out of
   the loop (either `AttributeError` from `section.get` on a non-dict section,
   or a raising insert).  The loop body has no exception handler, so the first
   raise aborts the loop. -/
structure MatRes where
  inserted : List Record
  attempts : Nat
  raised : Bool

/- The insert loop.  `failsAt k` says whether the k-th `insert_one` call of
   this file raises; `ts k` is the `time.time()` reading taken while building
   the k-th document. -/
def matAux (fname : List Char) (ts : Nat → Int) (failsAt : Nat → Bool) :
    Nat → List Json → MatRes
  | _, [] => ⟨[], 0, false⟩
  | k, s :: rest =>
    match s with
    | Json.obj fields =>
      if failsAt k then ⟨[], 1, true⟩
      else
        let r := matAux fname ts failsAt (k + 1) rest
        ⟨mkRecord fname (ts k) fields :: r.inserted, r.attempts + 1, r.raised⟩
    | _ => ⟨[], 0, true⟩

def materialize (fname : List Char) (ts : Nat → Int) (failsAt : Nat → Bool)
    (secs : List Json) : MatRes :=
  matAux fname ts failsAt 0 secs

/- `candidate = extract_first_json(raw) or raw.strip()` (line 124);
   a non-`None` extraction result is a nonempty string, hence truthy. -/
def candidateOf (raw : List Char) : List Char :=
  match extract_first_json raw with
  | some s => s
  | none => pyStrip raw

/- `if not isinstance(sections, list): sections = [sections]` (lines 127-128). -/
def toSections : Json → List Json
  | Json.arr xs => xs
  | v => [v]

/- The retry loop of `process_text` (lines 119-137).  The model client and the
   JSON parser are external collaborators: `responses k` is the text returned
   by the k-th model call of this file (the raw `response` field, which
   `call_model` strips), and `parse` models `json.loads` (`none` models
   `JSONDecodeError`).  The result is the number of model calls made together
   with the parsed section list, or `none` for the terminal parse failure.
   The fuel is the number of loop iterations still allowed,
   `max_retries + 1 - attempt`; `calls` counts the calls already made. -/
def repairAux (parse : List Char → Option Json) (responses : Nat → List Char) :
    Nat → Nat → List Char → Nat × Option (List Json)
  | 0, calls, _ => (calls, none)
  | fuel + 1, calls, raw =>
    let cand := candidateOf raw
    match parse cand with
    | some v => (calls, some (toSections v))
    | none =>
      if 0 < fuel then repairAux parse responses fuel (calls + 1) (pyStrip (responses calls))
      else (calls, none)

/- `process_text` up to (and including) the retry loop: one generate-mode call
   (line 120) and then at most `max_retries` fix-mode calls. -/
def process_text_model (parse : List Char → Option Json) (responses : Nat → List Char)
    (max_retries : Nat) : Nat × Option (List Json) :=
  repairAux parse responses (max_retries + 1) 1 (pyStrip (responses 0))

/- Outcome of one `process_text` run: terminal parse failure (lines 134-137),
   normal completion over n sections (line 150), or an exception propagating
   out of the insert loop to the caller. -/
inductive Outcome where
  | failed : Outcome
  | ok (n : Nat) : Outcome
  | raised : Outcome

/- The whole of `process_text`: retry loop, then the insert loop. -/
def process_text_full (parse : List Char → Option Json) (responses : Nat → List Char)
    (failsAt : Nat → Bool) (ts : Nat → Int) (fname : List Char) (max_retries : Nat) :
    List Record × Outcome :=
  match (process_text_model parse responses max_retries).2 with
  | none => ([], Outcome.failed)
  | some secs =>
    let m := materialize fname ts failsAt secs
    (m.inserted, if m.raised then Outcome.raised else Outcome.ok secs.length)

/- ------------------------------------------------------------------ -/
/- Lemmas about the retry loop (claims C3, C4, C5).                    -/
/- ------------------------------------------------------------------ -/

theorem repairAux_succ (parse : List Char → Option Json) (resp : Nat → List Char)
    (fuel calls : Nat) (raw : List Char) :
    repairAux parse resp (fuel + 1) calls raw =
      match parse (candidateOf raw) with
      | some v => (calls, some (toSections v))
      | none =>
        if 0 < fuel then repairAux parse resp fuel (calls + 1) (pyStrip (resp calls))
        else (calls, none) := rfl

theorem repairAux_calls_le (parse : List Char → Option Json) (resp : Nat → List Char) :
    ∀ (fuel calls : Nat) (raw : List Char),
      (repairAux parse resp (fuel + 1) calls raw).1 ≤ calls + fuel := by
  intro fuel
  induction fuel with
  | zero =>
    intro calls raw
    rw [repairAux_succ]
    cases parse (candidateOf raw) <;> simp
  | succ f ih =>
    intro calls raw
    rw [repairAux_succ]
    cases parse (candidateOf raw) with
    | some v => simp
    | none =>
      rw [if_pos (Nat.succ_pos f)]
      have := ih (calls + 1) (pyStrip (resp calls))
      simp only []
      omega

theorem repairAux_calls_exact (parse : List Char → Option Json) (resp : Nat → List Char)
    (hall : ∀ s, parse s = none) :
    ∀ (fuel calls : Nat) (raw : List Char),
      (repairAux parse resp (fuel + 1) calls raw).1 = calls + fuel := by
  intro fuel
  induction fuel with
  | zero =>
    intro calls raw
    rw [repairAux_succ, hall]
    simp
  | succ f ih =>
    intro calls raw
    rw [repairAux_succ, hall, if_pos (Nat.succ_pos f)]
    have := ih (calls + 1) (pyStrip (resp calls))
    simp only []
    omega

/-- C3: for every non-negative maximum repair count N, processing one file
makes at most N+1 model calls, and exactly N+1 when every candidate is
unparsable (modelled by `parse` returning `none` on every string). -/
theorem c3_repair_bound (parse : List Char → Option Json) (responses : Nat → List Char)
    (N : Nat) :
    (process_text_model parse responses N).1 ≤ N + 1 ∧
    ((∀ s, parse s = none) → (process_text_model parse responses N).1 = N + 1) := by
  constructor
  · have h := repairAux_calls_le parse responses N 1 (pyStrip (responses 0))
    unfold process_text_model
    omega
  · intro hall
    have h := repairAux_calls_exact parse responses hall N 1 (pyStrip (responses 0))
    unfold process_text_model
    omega

theorem c3_repair_bound_witness :
    (process_text_model (fun _ => none) (fun _ => []) 1).1 = 2 :=
  (c3_repair_bound (fun _ => none) (fun _ => []) 1).2 (fun _ => rfl)

/-- C4: when the retry loop exhausts all attempts without a parse (the loop
yields `none`), `process_text` returns at line 137: the Failed outcome, with
zero records inserted for the file. -/
theorem c4_failure_atomicity (parse : List Char → Option Json)
    (responses : Nat → List Char) (failsAt : Nat → Bool) (ts : Nat → Int)
    (fname : List Char) (N : Nat)
    (hfail : (process_text_model parse responses N).2 = none) :
    process_text_full parse responses failsAt ts fname N = ([], Outcome.failed) := by
  unfold process_text_full
  rw [hfail]

theorem c4_failure_atomicity_witness :
    process_text_full (fun _ => none) (fun _ => []) (fun _ => false) (fun _ => 0) [] 0
      = ([], Outcome.failed) :=
  c4_failure_atomicity _ _ _ _ _ _ rfl

/-- C5: a backend response whose extracted candidate parses as a bare JSON
object is wrapped into a one-element list by lines 127-128, so (when the
single insert does not raise) exactly one Record is inserted. -/
theorem c5_array_coercion (parse : List Char → Option Json)
    (responses : Nat → List Char) (failsAt : Nat → Bool) (ts : Nat → Int)
    (fname : List Char) (N : Nat) (fields : List (List Char × Json))
    (hparse : parse (candidateOf (pyStrip (responses 0))) = some (Json.obj fields))
    (hins : failsAt 0 = false) :
    process_text_full parse responses failsAt ts fname N =
      ([mkRecord fname (ts 0) fields], Outcome.ok 1) := by
  have hloop : process_text_model parse responses N = (1, some [Json.obj fields]) := by
    unfold process_text_model
    rw [repairAux_succ, hparse]
    rfl
  unfold process_text_full
  rw [hloop]
  simp [materialize, matAux, hins]

theorem c5_array_coercion_witness :
    process_text_full
      (fun s => if s = (['{', '}'] : List Char) then some (Json.obj []) else none)
      (fun _ => ['{', '}']) (fun _ => false) (fun _ => 0) [] 1
      = ([mkRecord [] 0 []], Outcome.ok 1) :=
  c5_array_coercion _ _ _ _ _ _ _ rfl rfl

/- ------------------------------------------------------------------ -/
/- Lemmas about the insert loop (claims C2, C6, C9).                   -/
/- ------------------------------------------------------------------ -/

theorem lookupLast_eq_none (k : List Char) :
    ∀ (fs : List (List Char × Json)), (∀ p ∈ fs, p.1 ≠ k) → lookupLast k fs = none := by
  intro fs
  induction fs with
  | nil => intro _; rfl
  | cons hd tl ih =>
    intro h
    obtain ⟨k', v⟩ := hd
    simp only [lookupLast]
    rw [ih (fun p hp => h p (List.mem_cons_of_mem _ hp))]
    have hne : k' ≠ k := h (k', v) (List.mem_cons_self _ _)
    show (if k' = k then some v else none) = none
    exact if_neg hne

/-- C6: a section object with no `tags` binding materializes with the empty
array (never absent, never null), and missing `title`, `summary`, `content`
each materialize as the empty string (lines 143-146). -/
theorem c6_defaulting (fname : List Char) (t : Int) (fields : List (List Char × Json)) :
    ((∀ p ∈ fields, p.1 ≠ tagsKey) → (mkRecord fname t fields).tags = Json.arr []) ∧
    ((∀ p ∈ fields, p.1 ≠ titleKey) → (mkRecord fname t fields).title = Json.str []) ∧
    ((∀ p ∈ fields, p.1 ≠ summaryKey) → (mkRecord fname t fields).summary = Json.str []) ∧
    ((∀ p ∈ fields, p.1 ≠ contentKey) → (mkRecord fname t fields).original = Json.str []) := by
  refine ⟨fun h => ?_, fun h => ?_, fun h => ?_, fun h => ?_⟩ <;>
    simp [mkRecord, lookupLast_eq_none _ _ h]

theorem c6_defaulting_witness :
    (mkRecord [] 0 []).tags = Json.arr [] ∧ (mkRecord [] 0 []).title = Json.str [] ∧
    (mkRecord [] 0 []).summary = Json.str [] ∧ (mkRecord [] 0 []).original = Json.str [] :=
  ⟨(c6_defaulting [] 0 []).1 (by simp), (c6_defaulting [] 0 []).2.1 (by simp),
   (c6_defaulting [] 0 []).2.2.1 (by simp), (c6_defaulting [] 0 []).2.2.2 (by simp)⟩

theorem matAux_abort (fname : List Char) (ts : Nat → Int) (failsAt : Nat → Bool) :
    ∀ (secs : List Json) (b k : Nat),
      (∀ x ∈ secs, isObj x = true) → k < secs.length →
      failsAt (b + k) = true → (∀ j < k, failsAt (b + j) = false) →
      (matAux fname ts failsAt b secs).attempts = k + 1 ∧
      (matAux fname ts failsAt b secs).raised = true ∧
      (matAux fname ts failsAt b secs).inserted.length = k := by
  intro secs
  induction secs with
  | nil => intro b k _ hk; exact absurd hk (by simp)
  | cons s rest ih =>
    intro b k hobj hk hfk hbefore
    have hs : isObj s = true := hobj s (List.mem_cons_self _ _)
    cases s with
    | obj fields =>
      cases k with
      | zero =>
        have : failsAt b = true := by simpa using hfk
        simp [matAux, this]
      | succ k' =>
        have hb : failsAt b = false := by
          have := hbefore 0 (Nat.succ_pos _)
          simpa using this
        have ihr := ih (b + 1) k' (fun x hx => hobj x (List.mem_cons_of_mem _ hx))
          (by simpa using Nat.lt_of_succ_lt_succ hk)
          (by have : b + (k' + 1) = b + 1 + k' := by omega
              rw [← this]; exact hfk)
          (fun j hj => by
            have : b + 1 + j = b + (j + 1) := by omega
            rw [this]; exact hbefore (j + 1) (Nat.succ_lt_succ hj))
        simp only [matAux, hb, Bool.false_eq_true, if_false]
        exact ⟨by rw [ihr.1], ihr.2.1, by simp [ihr.2.2]⟩
    | null => simp [isObj] at hs
    | bool b' => simp [isObj] at hs
    | num n => simp [isObj] at hs
    | str s' => simp [isObj] at hs
    | arr xs => simp [isObj] at hs

/-- C2 counterexample: with two object sections and the first insert raising,
only one insert is attempted (the loop body has no handler, so the raise
aborts the loop) and the exception surfaces, contradicting the claim that
every subsequent insert is still attempted with no error surfaced. -/
theorem c2_counterexample :
    (materialize [] (fun _ => 0) (fun k => decide (k = 0))
        [Json.obj [], Json.obj []]).attempts = 1 ∧
    (materialize [] (fun _ => 0) (fun k => decide (k = 0))
        [Json.obj [], Json.obj []]).raised = true ∧
    ([Json.obj [], Json.obj []] : List Json).length = 2 := by
  refine ⟨rfl, rfl, rfl⟩

/-- C2 amended: when the insert of record k raises (earlier inserts
succeeding, all sections object-shaped), the k records already inserted are
kept — no rollback — but the loop aborts: exactly k+1 inserts are attempted,
subsequent records are not attempted, and the exception propagates. -/
theorem c2_insert_abort (fname : List Char) (ts : Nat → Int) (failsAt : Nat → Bool)
    (secs : List Json) (k : Nat)
    (hobj : ∀ x ∈ secs, isObj x = true) (hk : k < secs.length)
    (hfk : failsAt k = true) (hbefore : ∀ j < k, failsAt j = false) :
    (materialize fname ts failsAt secs).attempts = k + 1 ∧
    (materialize fname ts failsAt secs).raised = true ∧
    (materialize fname ts failsAt secs).inserted.length = k := by
  have := matAux_abort fname ts failsAt secs 0 k hobj hk (by simpa using hfk)
    (fun j hj => by simpa using hbefore j hj)
  simpa [materialize] using this

theorem c2_insert_abort_witness :
    (materialize [] (fun _ => 0) (fun k => decide (k = 1))
        [Json.obj [], Json.obj [], Json.obj []]).attempts = 2 ∧
    (materialize [] (fun _ => 0) (fun k => decide (k = 1))
        [Json.obj [], Json.obj [], Json.obj []]).raised = true ∧
    (materialize [] (fun _ => 0) (fun k => decide (k = 1))
        [Json.obj [], Json.obj [], Json.obj []]).inserted.length = 1 :=
  c2_insert_abort [] (fun _ => 0) (fun k => decide (k = 1)) _ 1
    (by decide) (by decide) (by decide) (by decide)

theorem matAux_prefix_bad (fname : List Char) (ts : Nat → Int) (failsAt : Nat → Bool)
    (hok : ∀ j, failsAt j = false) :
    ∀ (objs : List Json) (b : Nat) (bad : Json) (rest : List Json),
      (∀ x ∈ objs, isObj x = true) → isObj bad = false →
      (matAux fname ts failsAt b (objs ++ bad :: rest)).raised = true ∧
      (matAux fname ts failsAt b (objs ++ bad :: rest)).inserted
        = (matAux fname ts failsAt b objs).inserted ∧
      (matAux fname ts failsAt b objs).inserted.length = objs.length := by
  intro objs
  induction objs with
  | nil =>
    intro b bad rest _ hbad
    simp only [List.nil_append]
    cases bad with
    | obj fields => simp [isObj] at hbad
    | null => exact ⟨rfl, rfl, rfl⟩
    | bool b' => exact ⟨rfl, rfl, rfl⟩
    | num n => exact ⟨rfl, rfl, rfl⟩
    | str s' => exact ⟨rfl, rfl, rfl⟩
    | arr xs => exact ⟨rfl, rfl, rfl⟩
  | cons o objs' ih =>
    intro b bad rest hobj hbad
    have ho : isObj o = true := hobj o (List.mem_cons_self _ _)
    cases o with
    | obj fields =>
      have ihr := ih (b + 1) bad rest (fun x hx => hobj x (List.mem_cons_of_mem _ hx)) hbad
      simp only [List.cons_append, matAux, hok b, Bool.false_eq_true, if_false,
        List.append_eq]
      exact ⟨ihr.1, by rw [ihr.2.1], by simp [ihr.2.2]⟩
    | null => simp [isObj] at ho
    | bool b' => simp [isObj] at ho
    | num n => simp [isObj] at ho
    | str s' => simp [isObj] at ho
    | arr xs => simp [isObj] at ho

/-- C9: when the parsed candidate is an array containing a non-object element,
the insert loop raises at that element (`section.get` on a non-dict), and the
object-shaped elements preceding it have already been inserted: a parseable
but ill-shaped response yields a strict prefix of its records. -/
theorem c9_illshaped_prefix (parse : List Char → Option Json)
    (responses : Nat → List Char) (failsAt : Nat → Bool) (ts : Nat → Int)
    (fname : List Char) (N : Nat) (objs : List Json) (bad : Json) (rest : List Json)
    (hparse : parse (candidateOf (pyStrip (responses 0)))
      = some (Json.arr (objs ++ bad :: rest)))
    (hobjs : ∀ x ∈ objs, isObj x = true) (hbad : isObj bad = false)
    (hok : ∀ j, failsAt j = false) :
    (process_text_full parse responses failsAt ts fname N).2 = Outcome.raised ∧
    (process_text_full parse responses failsAt ts fname N).1
      = (materialize fname ts failsAt objs).inserted ∧
    (process_text_full parse responses failsAt ts fname N).1.length = objs.length := by
  have hloop : process_text_model parse responses N
      = (1, some (objs ++ bad :: rest)) := by
    unfold process_text_model
    rw [repairAux_succ, hparse]
    rfl
  have hmat := matAux_prefix_bad fname ts failsAt hok objs 0 bad rest hobjs hbad
  unfold process_text_full
  rw [hloop]
  simp only [materialize] at hmat ⊢
  refine ⟨by simp [hmat.1], by simp [hmat.2.1], by simp [hmat.2.1, hmat.2.2]⟩

theorem c9_illshaped_prefix_witness :
    (process_text_full
        (fun s => if s = (['[', '1', ']'] : List Char)
          then some (Json.arr [Json.obj [], Json.num 1]) else none)
        (fun _ => ['[', '1', ']']) (fun _ => false) (fun _ => 0) [] 1).2
      = Outcome.raised ∧
    (process_text_full
        (fun s => if s = (['[', '1', ']'] : List Char)
          then some (Json.arr [Json.obj [], Json.num 1]) else none)
        (fun _ => ['[', '1', ']']) (fun _ => false) (fun _ => 0) [] 1).1.length = 1 := by
  have h := c9_illshaped_prefix
    (fun s => if s = (['[', '1', ']'] : List Char)
      then some (Json.arr [Json.obj [], Json.num 1]) else none)
    (fun _ => ['[', '1', ']']) (fun _ => false) (fun _ => 0) [] 1
    [Json.obj []] (Json.num 1) [] rfl
    (by intro x hx; rw [List.mem_singleton] at hx; subst hx; rfl) rfl (fun _ => rfl)
  exact ⟨h.1, h.2.2⟩

/- ------------------------------------------------------------------ -/
/- Sanitizer idempotence (claim C7).                                   -/
/- ------------------------------------------------------------------ -/

/- A triple backtick starts at position p of l. -/
def fenceAt (l : List Char) (p : Nat) : Prop := ∃ t, l.drop p = fence3 ++ t

theorem take3_eq_fence3_iff (l : List Char) :
    l.take 3 = fence3 ↔ ∃ t, l = fence3 ++ t := by
  constructor
  · intro h
    exact ⟨l.drop 3, by rw [← h, List.take_append_drop]⟩
  · rintro ⟨t, rfl⟩
    have h3 : fence3.length = 3 := rfl
    rw [← h3, List.take_left]

theorem fenceAt_zero_iff (l : List Char) : fenceAt l 0 ↔ l.take 3 = fence3 := by
  rw [take3_eq_fence3_iff]
  simp [fenceAt]

theorem fenceAt_succ_iff (c : Char) (rest : List Char) (p : Nat) :
    fenceAt (c :: rest) (p + 1) ↔ fenceAt rest p := by
  simp [fenceAt, List.drop_succ_cons]

theorem findFence_eq_none_iff : ∀ l : List Char, findFence l = none ↔ ∀ p, ¬ fenceAt l p := by
  intro l
  induction l with
  | nil =>
    simp only [findFence]
    constructor
    · intro _ p hf
      obtain ⟨t, ht⟩ := hf
      simp [fence3] at ht
    · intro _
      trivial
  | cons c rest ih =>
    simp only [findFence]
    by_cases h : (c :: rest).take 3 = fence3
    · rw [if_pos h]
      constructor
      · intro hc
        exact absurd hc (by simp)
      · intro hall
        exact absurd ((fenceAt_zero_iff _).mpr h) (hall 0)
    · rw [if_neg h, Option.map_eq_none']
      rw [ih]
      constructor
      · intro hall p
        cases p with
        | zero => rw [fenceAt_zero_iff]; exact h
        | succ p' => rw [fenceAt_succ_iff]; exact hall p'
      · intro hall p hf
        exact hall (p + 1) ((fenceAt_succ_iff _ _ _).mpr hf)

theorem findFence_min : ∀ (l : List Char) (m : Nat), findFence l = some m →
    ∀ p < m, ¬ fenceAt l p := by
  intro l
  induction l with
  | nil => intro m hm; simp [findFence] at hm
  | cons c rest ih =>
    intro m hm p hp
    simp only [findFence] at hm
    by_cases h : (c :: rest).take 3 = fence3
    · rw [if_pos h] at hm
      have : m = 0 := (Option.some_inj.mp hm).symm
      omega
    · rw [if_neg h, Option.map_eq_some'] at hm
      obtain ⟨j, hj, hjm⟩ := hm
      subst hjm
      cases p with
      | zero => rw [fenceAt_zero_iff]; exact h
      | succ p' =>
        rw [fenceAt_succ_iff]
        exact ih j hj p' (by omega)

theorem fenceAt_take (l : List Char) (m p : Nat) (h : fenceAt (l.take m) p) :
    fenceAt l p ∧ p + 3 ≤ m := by
  obtain ⟨t, ht⟩ := h
  rw [List.drop_take m p l] at ht
  constructor
  · refine ⟨t ++ (l.drop p).drop (m - p), ?_⟩
    conv_lhs => rw [← List.take_append_drop (m - p) (l.drop p)]
    rw [ht, List.append_assoc]
  · have hlen := congrArg List.length ht
    simp [fence3] at hlen
    omega

theorem fenceAt_append (a x b : List Char) (p : Nat) (h : fenceAt x p) :
    fenceAt (a ++ x ++ b) (a.length + p) := by
  obtain ⟨t, ht⟩ := h
  have hp : p ≤ x.length := by
    have hlen := congrArg List.length ht
    simp [fence3] at hlen
    omega
  refine ⟨t ++ b, ?_⟩
  rw [List.append_assoc]
  have h1 : (a ++ (x ++ b)).drop (a.length + p) = (x ++ b).drop p := by
    simp [List.drop_append]
  rw [h1, List.drop_append_of_le_length hp, ht, List.append_assoc]

theorem pyLStrip_decomp (l : List Char) : ∃ a, l = a ++ pyLStrip l :=
  ⟨l.takeWhile pyIsSpace, (List.takeWhile_append_dropWhile _ _).symm⟩

theorem pyRStrip_decomp (l : List Char) : ∃ b, l = pyRStrip l ++ b := by
  refine ⟨(l.reverse.takeWhile pyIsSpace).reverse, ?_⟩
  have h : (l.reverse.dropWhile pyIsSpace).reverse ++ (l.reverse.takeWhile pyIsSpace).reverse
      = l := by
    rw [← List.reverse_append, List.takeWhile_append_dropWhile, List.reverse_reverse]
  exact (h.symm ▸ rfl)

theorem pyStrip_decomp (l : List Char) : ∃ a b, l = a ++ pyStrip l ++ b := by
  obtain ⟨a, ha⟩ := pyLStrip_decomp l
  obtain ⟨b, hb⟩ := pyRStrip_decomp (pyLStrip l)
  refine ⟨a, b, ?_⟩
  rw [List.append_assoc]
  show l = a ++ (pyRStrip (pyLStrip l) ++ b)
  rw [← hb, ← ha]

theorem strip_code_fences_of_fenceFree (t : List Char) (h : findFence t = none) :
    strip_code_fences t = t := by
  unfold strip_code_fences
  rw [h]

theorem strip_code_fences_some (t : List Char) (i : Nat) (h1 : findFence t = some i) :
    strip_code_fences t
      = match findFence (fenceBody t i) with
        | none => t
        | some m => pyStrip ((fenceBody t i).take m) := by
  unfold strip_code_fences
  rw [h1]

theorem strip_code_fences_eq_of_some_some (t : List Char) (i m : Nat)
    (h1 : findFence t = some i) (h2 : findFence (fenceBody t i) = some m) :
    strip_code_fences t = pyStrip ((fenceBody t i).take m) := by
  rw [strip_code_fences_some t i h1, h2]

theorem strip_output_fenceFree (t : List Char) (i m : Nat)
    (h2 : findFence (fenceBody t i) = some m) :
    ∀ p, ¬ fenceAt (pyStrip ((fenceBody t i).take m)) p := by
  intro p hf
  obtain ⟨a, b, hab⟩ := pyStrip_decomp ((fenceBody t i).take m)
  have hf2 : fenceAt ((fenceBody t i).take m) (a.length + p) := by
    rw [hab]
    exact fenceAt_append a _ b p hf
  obtain ⟨hf3, hle⟩ := fenceAt_take _ m _ hf2
  exact findFence_min _ m h2 (a.length + p) (by omega) hf3

/-- C7: the Response Sanitizer is idempotent: stripping code fences from its
own output returns that output unchanged, so sanitize (sanitize t) =
sanitize t for every text t. -/
theorem c7_sanitizer_idempotent (t : List Char) :
    strip_code_fences (strip_code_fences t) = strip_code_fences t := by
  cases h1 : findFence t with
  | none =>
    rw [strip_code_fences_of_fenceFree t h1, strip_code_fences_of_fenceFree t h1]
  | some i =>
    cases h2 : findFence (fenceBody t i) with
    | none =>
      have he : strip_code_fences t = t := by
        rw [strip_code_fences_some t i h1, h2]
      rw [he]
      exact he
    | some m =>
      have he := strip_code_fences_eq_of_some_some t i m h1 h2
      rw [he]
      exact strip_code_fences_of_fenceFree _
        ((findFence_eq_none_iff _).mpr (strip_output_fenceFree t i m h2))

/- ------------------------------------------------------------------ -/
/- Scanner characterization (claims C8, C10).                          -/
/- ------------------------------------------------------------------ -/

/- The scanner state after consuming l from state st. -/
def stFold (o c : Char) (st : ScanSt) (l : List Char) : ScanSt :=
  l.foldl (stepSt o c) st

/- Whether, in a scan of l started in state st, the loop's return condition
   fires at relative position k: outside a string literal, the character is
   the closing bracket and the depth comes back to zero there. -/
def qualAt (o c : Char) (st : ScanSt) : List Char → Nat → Bool
  | [], _ => false
  | ch :: _, 0 => retHere o c st ch
  | ch :: rest, k + 1 => qualAt o c (stepSt o c st ch) rest k

theorem qualAt_of_le (o c : Char) :
    ∀ (l : List Char) (st : ScanSt) (k : Nat), l.length ≤ k →
      qualAt o c st l k = false := by
  intro l
  induction l with
  | nil => intro st k _; rfl
  | cons ch rest ih =>
    intro st k hk
    cases k with
    | zero => simp at hk
    | succ k' => exact ih _ k' (by simpa using hk)

theorem qualAt_true_lt (o c : Char) :
    ∀ (l : List Char) (st : ScanSt) (k : Nat),
      qualAt o c st l k = true → k < l.length := by
  intro l
  induction l with
  | nil => intro st k h; simp [qualAt] at h
  | cons ch rest ih =>
    intro st k h
    cases k with
    | zero => simp
    | succ k' =>
      have := ih (stepSt o c st ch) k' h
      simpa using Nat.succ_lt_succ this

theorem scanFrom_eq_none_iff (o c : Char) :
    ∀ (l : List Char) (st : ScanSt) (i : Nat),
      scanFrom o c st i l = none ↔ ∀ k, qualAt o c st l k = false := by
  intro l
  induction l with
  | nil => intro st i; simp [scanFrom, qualAt]
  | cons ch rest ih =>
    intro st i
    cases hr : retHere o c st ch with
    | true =>
      simp only [scanFrom, hr, if_pos]
      constructor
      · intro hc; exact absurd hc (by simp)
      · intro hall
        have h0 := hall 0
        simp only [qualAt, hr] at h0
        exact absurd h0 (by simp)
    | false =>
      simp only [scanFrom, hr]
      rw [if_neg (by simp)]
      rw [ih (stepSt o c st ch) (i + 1)]
      constructor
      · intro hall k
        cases k with
        | zero => simp [qualAt, hr]
        | succ k' => exact hall k'
      · intro hall k
        exact hall (k + 1)

theorem scanFrom_eq_some (o c : Char) :
    ∀ (l : List Char) (st : ScanSt) (i r : Nat),
      scanFrom o c st i l = some r →
      ∃ k, r = i + k ∧ qualAt o c st l k = true ∧
        ∀ j < k, qualAt o c st l j = false := by
  intro l
  induction l with
  | nil => intro st i r h; simp [scanFrom] at h
  | cons ch rest ih =>
    intro st i r h
    cases hr : retHere o c st ch with
    | true =>
      simp only [scanFrom, hr, if_pos] at h
      have hir : i = r := Option.some_inj.mp h
      refine ⟨0, by omega, by simp [qualAt, hr], ?_⟩
      intro j hj
      omega
    | false =>
      simp only [scanFrom, hr] at h
      rw [if_neg (by simp)] at h
      obtain ⟨k, hk, hq, hmin⟩ := ih (stepSt o c st ch) (i + 1) r h
      refine ⟨k + 1, by omega, hq, ?_⟩
      intro j hj
      cases j with
      | zero => simp [qualAt, hr]
      | succ j' => exact hmin j' (by omega)

theorem retHere_char (o c : Char) (st : ScanSt) (ch : Char)
    (h : retHere o c st ch = true) : ch = c := by
  simp only [retHere, Bool.and_eq_true, decide_eq_true_eq] at h
  exact h.1.2

theorem getLast?_cons_some (xs : List Char) (a y : Char) (h : xs.getLast? = some y) :
    (a :: xs).getLast? = some y := by
  cases xs with
  | nil => simp at h
  | cons b l => rw [List.getLast?_cons_cons]; exact h

theorem qualAt_getLast (o c : Char) :
    ∀ (l : List Char) (st : ScanSt) (k : Nat),
      qualAt o c st l k = true → (l.take (k + 1)).getLast? = some c := by
  intro l
  induction l with
  | nil => intro st k h; simp [qualAt] at h
  | cons ch rest ih =>
    intro st k h
    cases k with
    | zero =>
      have hc : ch = c := retHere_char o c st ch h
      subst hc
      simp
    | succ k' =>
      have h' : qualAt o c (stepSt o c st ch) rest k' = true := h
      have hlast := ih (stepSt o c st ch) k' h'
      rw [List.take_succ_cons]
      exact getLast?_cons_some _ _ _ hlast

theorem head?_take_succ (l : List Char) (n : Nat) (a : Char) (h : l.head? = some a) :
    (l.take (n + 1)).head? = some a := by
  cases l with
  | nil => simp at h
  | cons b rest =>
    simp only [List.head?_cons, Option.some_inj] at h
    subst h
    simp

theorem pyFind_head (target : Char) :
    ∀ (l : List Char) (i : Nat), pyFind l target = some i →
      (l.drop i).head? = some target := by
  intro l
  induction l with
  | nil => intro i h; simp [pyFind] at h
  | cons ch rest ih =>
    intro i h
    simp only [pyFind] at h
    by_cases hc : ch = target
    · rw [if_pos hc] at h
      have : i = 0 := (Option.some_inj.mp h).symm
      subst this
      subst hc
      rfl
    · rw [if_neg hc, Option.map_eq_some'] at h
      obtain ⟨j, hj, hji⟩ := h
      subst hji
      rw [List.drop_succ_cons]
      exact ih j hj

theorem extract_balanced_block_some_find (text : List Char) (o c : Char) (start : Nat)
    (hf : pyFind text o = some start) :
    extract_balanced_block text o c
      = match scanFrom o c initSt 0 (text.drop start) with
        | none => none
        | some rel => some ((text.drop start).take (rel + 1)) := by
  unfold extract_balanced_block
  rw [hf]

/-- C8: when the text contains the opening bracket (at first index `start`)
but the scan's return condition never fires — the depth never comes back to
zero at a closing bracket outside a string literal — the extractor reports
no match (`none`); being a total function it also never throws. -/
theorem c8_extractor_negative (text : List Char) (o c : Char) (start : Nat)
    (hstart : pyFind text o = some start)
    (hno : ∀ k < text.length, qualAt o c initSt (text.drop start) k = false) :
    extract_balanced_block text o c = none := by
  rw [extract_balanced_block_some_find text o c start hstart]
  have hnone : scanFrom o c initSt 0 (text.drop start) = none := by
    rw [scanFrom_eq_none_iff]
    intro k
    by_cases hk : k < text.length
    · exact hno k hk
    · refine qualAt_of_le o c _ _ _ ?_
      have := List.length_drop start text
      omega
  rw [hnone]

theorem c8_extractor_negative_witness :
    extract_balanced_block ['[', '1'] '[' ']' = none :=
  c8_extractor_negative ['[', '1'] '[' ']' 0 rfl (by decide)

/-- C10: whenever the extractor returns a block s, s is the contiguous slice
of the input starting at the first occurrence of the opening bracket, its
first character is the opening bracket, its last character is the closing
bracket, and the scan's depth-returns-to-zero condition holds exactly at s's
last character and at no earlier position. -/
theorem c10_result_invariant (text : List Char) (o c : Char) (s : List Char)
    (h : extract_balanced_block text o c = some s) :
    ∃ start rel,
      pyFind text o = some start ∧
      s = (text.drop start).take (rel + 1) ∧
      s.length = rel + 1 ∧
      s.head? = some o ∧
      s.getLast? = some c ∧
      qualAt o c initSt (text.drop start) rel = true ∧
      ∀ j < rel, qualAt o c initSt (text.drop start) j = false := by
  cases hf : pyFind text o with
  | none =>
    unfold extract_balanced_block at h
    rw [hf] at h
    exact absurd h (by simp)
  | some start =>
    rw [extract_balanced_block_some_find text o c start hf] at h
    cases hs : scanFrom o c initSt 0 (text.drop start) with
    | none => rw [hs] at h; exact absurd h (by simp)
    | some rel =>
      rw [hs] at h
      have hseq : s = (text.drop start).take (rel + 1) := (Option.some_inj.mp h).symm
      obtain ⟨k, hk0, hq, hmin⟩ := scanFrom_eq_some o c _ _ _ _ hs
      have hkrel : k = rel := by omega
      subst hkrel
      have hlt := qualAt_true_lt o c _ _ _ hq
      refine ⟨start, k, rfl, hseq, ?_, ?_, ?_, hq, hmin⟩
      · rw [hseq, List.length_take]
        omega
      · rw [hseq]
        exact head?_take_succ _ _ _ (pyFind_head o text start hf)
      · rw [hseq]
        exact qualAt_getLast o c _ _ _ hq

theorem c10_result_invariant_witness :
    ∃ start rel,
      pyFind ['[', ']'] '[' = some start ∧
      (['[', ']'] : List Char) = ((['[', ']'] : List Char).drop start).take (rel + 1) ∧
      (['[', ']'] : List Char).length = rel + 1 ∧
      (['[', ']'] : List Char).head? = some '[' ∧
      (['[', ']'] : List Char).getLast? = some ']' ∧
      qualAt '[' ']' initSt ((['[', ']'] : List Char).drop start) rel = true ∧
      ∀ j < rel, qualAt '[' ']' initSt ((['[', ']'] : List Char).drop start) j = false :=
  c10_result_invariant ['[', ']'] '[' ']' ['[', ']'] rfl

/- ------------------------------------------------------------------ -/
/- A grammar of well-formed JSON value strings (claim C1).             -/
/- The claim quantifies over texts containing a well-formed top-level  -/
/- JSON value, so this part follows the JSON specification (strings    -/
/- with escapes, numbers, literals, arrays, objects, whitespace).      -/
/- ------------------------------------------------------------------ -/

/- JSON insignificant whitespace. -/
def wsChar (ch : Char) : Bool :=
  decide (ch = ' ') || decide (ch = '\t') || decide (ch = '\n') || decide (ch = '\r')

def allWS (l : List Char) : Bool := l.all wsChar

def isDigitC (ch : Char) : Bool := decide ('0' ≤ ch) && decide (ch ≤ '9')

def isHexDigit (ch : Char) : Bool :=
  isDigitC ch || (decide ('a' ≤ ch) && decide (ch ≤ 'f')) ||
    (decide ('A' ≤ ch) && decide (ch ≤ 'F'))

/- Characters that can occur in a JSON number. -/
def numChar (ch : Char) : Bool :=
  isDigitC ch || decide (ch = '-') || decide (ch = '+') || decide (ch = '.') ||
  decide (ch = 'e') || decide (ch = 'E')

/- JSON number grammar: int = -?(0|[1-9][0-9]*), then optional fraction
   .[0-9]+ and optional exponent [eE][+-]?[0-9]+. -/
def stripSign : List Char → List Char
  | [] => []
  | ch :: r => if ch = '-' then r else ch :: r

def numAfterSign : List Char → Option (List Char)
  | [] => none
  | ch :: rest =>
    if ch = '0' then some rest
    else if '1' ≤ ch ∧ ch ≤ '9' then some (rest.dropWhile isDigitC)
    else none

def expDigits : List Char → Option (List Char)
  | [] => none
  | d :: r => if isDigitC d then some (r.dropWhile isDigitC) else none

def optFrac : List Char → Option (List Char)
  | [] => some []
  | ch :: rest => if ch = '.' then expDigits rest else some (ch :: rest)

def stripExpSign : List Char → List Char
  | [] => []
  | s :: r => if s = '+' ∨ s = '-' then r else s :: r

def optExp : List Char → Option (List Char)
  | [] => some []
  | ch :: rest =>
    if ch = 'e' ∨ ch = 'E' then expDigits (stripExpSign rest)
    else some (ch :: rest)

def isJNumber (s : List Char) : Bool :=
  match numAfterSign (stripSign s) with
  | none => false
  | some r1 =>
    match optFrac r1 with
    | none => false
    | some r2 =>
      match optExp r2 with
      | none => false
      | some r3 => decide (r3 = [])

/- The body of a JSON string literal (between the double quotes): unescaped
   characters are neither `"` nor `\` nor control characters; escapes are
   the simple ones or \-u followed by four hex digits. -/
inductive JStrBody : List Char → Prop where
  | nil : JStrBody []
  | plain (ch : Char) (r : List Char) : ch ≠ '"' → ch ≠ '\\' → 32 ≤ ch.toNat →
      JStrBody r → JStrBody (ch :: r)
  | esc (e : Char) (r : List Char) : e ∈ ['"', '\\', '/', 'b', 'f', 'n', 'r', 't'] →
      JStrBody r → JStrBody ('\\' :: e :: r)
  | uesc (h1 h2 h3 h4 : Char) (r : List Char) :
      isHexDigit h1 = true → isHexDigit h2 = true → isHexDigit h3 = true →
      isHexDigit h4 = true → JStrBody r →
      JStrBody ('\\' :: 'u' :: h1 :: h2 :: h3 :: h4 :: r)

/- Grammar sorts: a value, the non-empty element list of an array, the
   non-empty member list of an object. -/
inductive JK where
  | val : JK
  | elems : JK
  | members : JK

/- JG k s: s is a word of sort k in the JSON grammar.  Chunks are
   parenthesized to expose the concatenation structure. -/
inductive JG : JK → List Char → Prop where
  | str (b : List Char) : JStrBody b → JG JK.val ('"' :: b ++ ['"'])
  | num (s : List Char) : isJNumber s = true → JG JK.val s
  | tru : JG JK.val ['t', 'r', 'u', 'e']
  | fls : JG JK.val ['f', 'a', 'l', 's', 'e']
  | nul : JG JK.val ['n', 'u', 'l', 'l']
  | arr0 (w : List Char) : allWS w = true → JG JK.val ('[' :: w ++ [']'])
  | arr (s : List Char) : JG JK.elems s → JG JK.val ('[' :: s ++ [']'])
  | obj0 (w : List Char) : allWS w = true → JG JK.val ('{' :: w ++ ['}'])
  | obj (s : List Char) : JG JK.members s → JG JK.val ('{' :: s ++ ['}'])
  | elem1 (w1 v w2 : List Char) : allWS w1 = true → JG JK.val v → allWS w2 = true →
      JG JK.elems (w1 ++ (v ++ w2))
  | elemN (w1 v w2 rest : List Char) : allWS w1 = true → JG JK.val v →
      allWS w2 = true → JG JK.elems rest →
      JG JK.elems (w1 ++ (v ++ (w2 ++ (',' :: rest))))
  | mem1 (w1 b w2 w3 v w4 : List Char) : allWS w1 = true → JStrBody b →
      allWS w2 = true → allWS w3 = true → JG JK.val v → allWS w4 = true →
      JG JK.members (w1 ++ (('"' :: b ++ ['"']) ++ (w2 ++ (':' :: (w3 ++ (v ++ w4))))))
  | memN (w1 b w2 w3 v w4 rest : List Char) : allWS w1 = true → JStrBody b →
      allWS w2 = true → allWS w3 = true → JG JK.val v → allWS w4 = true →
      JG JK.members rest →
      JG JK.members
        (w1 ++ (('"' :: b ++ ['"']) ++
          (w2 ++ (':' :: (w3 ++ (v ++ (w4 ++ (',' :: rest))))))))

/- ------------------------------------------------------------------ -/
/- Scanning a well-formed JSON value (claim C1): the balanced-block    -/
/- scan crosses any JSON value without firing its return condition and -/
/- without changing the depth.                                         -/
/- ------------------------------------------------------------------ -/

/- Whether the return condition fires anywhere while scanning l from st. -/
def scanRets (o c : Char) (st : ScanSt) : List Char → Bool
  | [] => false
  | ch :: rest => retHere o c st ch || scanRets o c (stepSt o c st ch) rest

theorem scanRets_nil (o c : Char) (st : ScanSt) : scanRets o c st [] = false := rfl

theorem scanRets_cons (o c : Char) (st : ScanSt) (ch : Char) (rest : List Char) :
    scanRets o c st (ch :: rest)
      = (retHere o c st ch || scanRets o c (stepSt o c st ch) rest) := rfl

theorem stFold_nil (o c : Char) (st : ScanSt) : stFold o c st [] = st := rfl

theorem stFold_cons (o c : Char) (st : ScanSt) (ch : Char) (rest : List Char) :
    stFold o c st (ch :: rest) = stFold o c (stepSt o c st ch) rest := rfl

theorem stFold_append (o c : Char) (st : ScanSt) (l1 l2 : List Char) :
    stFold o c st (l1 ++ l2) = stFold o c (stFold o c st l1) l2 :=
  List.foldl_append _ _ _ _

theorem scanRets_append (o c : Char) :
    ∀ (l1 : List Char) (st : ScanSt) (l2 : List Char),
      scanRets o c st (l1 ++ l2)
        = (scanRets o c st l1 || scanRets o c (stFold o c st l1) l2) := by
  intro l1
  induction l1 with
  | nil => intro st l2; simp [scanRets_nil, stFold_nil]
  | cons ch rest ih =>
    intro st l2
    rw [List.cons_append, scanRets_cons, ih, scanRets_cons, stFold_cons, Bool.or_assoc]

theorem scanFrom_cons_noRet (o c : Char) (st : ScanSt) (i : Nat) (ch : Char)
    (rest : List Char) (h : retHere o c st ch = false) :
    scanFrom o c st i (ch :: rest) = scanFrom o c (stepSt o c st ch) (i + 1) rest := by
  simp [scanFrom, h]

theorem scanFrom_cons_ret (o c : Char) (st : ScanSt) (i : Nat) (ch : Char)
    (rest : List Char) (h : retHere o c st ch = true) :
    scanFrom o c st i (ch :: rest) = some i := by
  simp [scanFrom, h]

theorem scanFrom_append_noRets (o c : Char) :
    ∀ (l1 : List Char) (st : ScanSt) (i : Nat) (l2 : List Char),
      scanRets o c st l1 = false →
      scanFrom o c st i (l1 ++ l2)
        = scanFrom o c (stFold o c st l1) (i + l1.length) l2 := by
  intro l1
  induction l1 with
  | nil => intro st i l2 _; simp [stFold_nil]
  | cons ch rest ih =>
    intro st i l2 h
    rw [scanRets_cons, Bool.or_eq_false_iff] at h
    rw [List.cons_append, scanFrom_cons_noRet o c st i ch _ h.1, stFold_cons,
      ih _ _ _ h.2]
    congr 1
    simp
    omega

/- Characters that leave a non-string scanner state untouched. -/
def inertB (o c ch : Char) : Bool :=
  !decide (ch = '"') && !decide (ch = sq) && !decide (ch = o) && !decide (ch = c)

theorem inertB_spec (o c ch : Char) (h : inertB o c ch = true) :
    ch ≠ '"' ∧ ch ≠ sq ∧ ch ≠ o ∧ ch ≠ c := by
  simp only [inertB, Bool.and_eq_true, Bool.not_eq_true', decide_eq_false_iff_not] at h
  exact ⟨h.1.1.1, h.1.1.2, h.1.2, h.2⟩

theorem stepSt_inert (o c : Char) (d : Int) (e : Bool) (q : Option Char) (ch : Char)
    (h : inertB o c ch = true) : stepSt o c ⟨d, false, e, q⟩ ch = ⟨d, false, e, q⟩ := by
  obtain ⟨h1, h2, h3, h4⟩ := inertB_spec o c ch h
  simp [stepSt, h1, h2, h3, h4]

theorem retHere_ne_c (o c : Char) (st : ScanSt) (ch : Char) (h : ch ≠ c) :
    retHere o c st ch = false := by
  simp [retHere, h]

theorem retHere_instr (o c : Char) (d : Int) (e : Bool) (q : Option Char) (ch : Char) :
    retHere o c ⟨d, true, e, q⟩ ch = false := by
  simp [retHere]

/- A chunk s is scan-transparent: from any non-string state of depth at least
   one, scanning s fires no return and restores the same depth and
   non-string mode (only the remembered quote character may change). -/
def ScanOK (o c : Char) (s : List Char) : Prop :=
  ∀ (d : Int) (q : Option Char), 1 ≤ d →
    scanRets o c ⟨d, false, false, q⟩ s = false ∧
    ∃ q2, stFold o c ⟨d, false, false, q⟩ s = ⟨d, false, false, q2⟩

theorem scanOK_nil (o c : Char) : ScanOK o c [] :=
  fun _ q _ => ⟨rfl, q, rfl⟩

theorem scanOK_cons_inert (o c ch : Char) (rest : List Char)
    (h : inertB o c ch = true) (hrest : ScanOK o c rest) : ScanOK o c (ch :: rest) := by
  intro d q hd
  obtain ⟨hr, q2, hf⟩ := hrest d q hd
  have hne := (inertB_spec o c ch h).2.2.2
  constructor
  · rw [scanRets_cons, stepSt_inert o c d false q ch h, retHere_ne_c o c _ ch hne,
      Bool.false_or, hr]
  · exact ⟨q2, by rw [stFold_cons, stepSt_inert o c d false q ch h, hf]⟩

theorem scanOK_append (o c : Char) (s1 s2 : List Char)
    (h1 : ScanOK o c s1) (h2 : ScanOK o c s2) : ScanOK o c (s1 ++ s2) := by
  intro d q hd
  obtain ⟨hr1, q1, hf1⟩ := h1 d q hd
  obtain ⟨hr2, q2, hf2⟩ := h2 d q1 hd
  constructor
  · rw [scanRets_append, hr1, hf1, hr2, Bool.or_false]
  · exact ⟨q2, by rw [stFold_append, hf1, hf2]⟩

theorem scanOK_inert (o c : Char) (s : List Char)
    (h : ∀ ch ∈ s, inertB o c ch = true) : ScanOK o c s := by
  induction s with
  | nil => exact scanOK_nil o c
  | cons ch rest ih =>
    exact scanOK_cons_inert o c ch rest (h ch (List.mem_cons_self _ _))
      (ih (fun x hx => h x (List.mem_cons_of_mem _ hx)))

/- The two bracket modes the extractor uses. -/
def BracketPair (o c : Char) : Prop := (o = '[' ∧ c = ']') ∨ (o = '{' ∧ c = '}')

theorem inertB_of_wsChar (o c : Char) (hoc : BracketPair o c) (ch : Char)
    (h : wsChar ch = true) : inertB o c ch = true := by
  have h' : ((ch = ' ' ∨ ch = '\t') ∨ ch = '\n') ∨ ch = '\r' := by
    simpa [wsChar, Bool.or_eq_true, decide_eq_true_eq] using h
  rcases hoc with ⟨rfl, rfl⟩ | ⟨rfl, rfl⟩ <;>
    rcases h' with ((rfl | rfl) | rfl) | rfl <;> decide

theorem scanOK_ws (o c : Char) (hoc : BracketPair o c) (w : List Char)
    (hw : allWS w = true) : ScanOK o c w := by
  apply scanOK_inert
  intro ch hch
  exact inertB_of_wsChar o c hoc ch (List.all_eq_true.mp hw ch hch)

theorem digitC_ne (x y : Char) (hx : isDigitC x = true) (hy : isDigitC y = false) :
    x ≠ y := fun heq => by rw [heq] at hx; rw [hx] at hy; cases hy

theorem inertB_of_digit (o c : Char) (hoc : BracketPair o c) (ch : Char)
    (h : isDigitC ch = true) : inertB o c ch = true := by
  have n1 := digitC_ne ch '"' h (by decide)
  have n2 := digitC_ne ch sq h (by decide)
  rcases hoc with ⟨rfl, rfl⟩ | ⟨rfl, rfl⟩
  · have n3 := digitC_ne ch '[' h (by decide)
    have n4 := digitC_ne ch ']' h (by decide)
    simp [inertB, n1, n2, n3, n4]
  · have n3 := digitC_ne ch '{' h (by decide)
    have n4 := digitC_ne ch '}' h (by decide)
    simp [inertB, n1, n2, n3, n4]

theorem inertB_of_numChar (o c : Char) (hoc : BracketPair o c) (ch : Char)
    (h : numChar ch = true) : inertB o c ch = true := by
  have h' : ((((isDigitC ch = true ∨ ch = '-') ∨ ch = '+') ∨ ch = '.') ∨ ch = 'e')
      ∨ ch = 'E' := by
    simpa [numChar, Bool.or_eq_true, decide_eq_true_eq] using h
  rcases h' with ((((hdg | rfl) | rfl) | rfl) | rfl) | rfl
  · exact inertB_of_digit o c hoc ch hdg
  all_goals rcases hoc with ⟨rfl, rfl⟩ | ⟨rfl, rfl⟩ <;> decide

theorem hex_ne_quote_bs (ch : Char) (h : isHexDigit ch = true) :
    ch ≠ '"' ∧ ch ≠ '\\' := by
  constructor <;> intro heq <;> rw [heq] at h <;> exact absurd h (by decide)

theorem scanStrBody (o c : Char) : ∀ {b : List Char}, JStrBody b → ∀ (d : Int),
    scanRets o c ⟨d, true, false, some '"'⟩ b = false ∧
    stFold o c ⟨d, true, false, some '"'⟩ b = ⟨d, true, false, some '"'⟩ := by
  intro b hb
  induction hb with
  | nil => intro d; exact ⟨rfl, rfl⟩
  | plain ch r hq hbs hctl hr ih =>
    intro d
    have hstep : stepSt o c ⟨d, true, false, some '"'⟩ ch = ⟨d, true, false, some '"'⟩ := by
      simp [stepSt, hbs, hq]
    obtain ⟨ihr, ihf⟩ := ih d
    exact ⟨by rw [scanRets_cons, retHere_instr, Bool.false_or, hstep, ihr],
           by rw [stFold_cons, hstep, ihf]⟩
  | esc e r he hr ih =>
    intro d
    have s1 : stepSt o c ⟨d, true, false, some '"'⟩ '\\' = ⟨d, true, true, some '"'⟩ := by
      simp [stepSt]
    have s2 : stepSt o c ⟨d, true, true, some '"'⟩ e = ⟨d, true, false, some '"'⟩ := by
      simp [stepSt]
    obtain ⟨ihr, ihf⟩ := ih d
    constructor
    · rw [scanRets_cons, retHere_instr, Bool.false_or, s1, scanRets_cons, retHere_instr,
        Bool.false_or, s2, ihr]
    · rw [stFold_cons, s1, stFold_cons, s2, ihf]
  | uesc h1c h2c h3c h4c r hh1 hh2 hh3 hh4 hr ih =>
    intro d
    have s1 : stepSt o c ⟨d, true, false, some '"'⟩ '\\' = ⟨d, true, true, some '"'⟩ := by
      simp [stepSt]
    have s2 : stepSt o c ⟨d, true, true, some '"'⟩ 'u' = ⟨d, true, false, some '"'⟩ := by
      simp [stepSt]
    have hx : ∀ x : Char, isHexDigit x = true →
        stepSt o c ⟨d, true, false, some '"'⟩ x = ⟨d, true, false, some '"'⟩ := by
      intro x hxh
      obtain ⟨hq', hbs'⟩ := hex_ne_quote_bs x hxh
      simp [stepSt, hq', hbs']
    obtain ⟨ihr, ihf⟩ := ih d
    constructor
    · rw [scanRets_cons, retHere_instr, Bool.false_or, s1,
        scanRets_cons, retHere_instr, Bool.false_or, s2,
        scanRets_cons, retHere_instr, Bool.false_or, hx h1c hh1,
        scanRets_cons, retHere_instr, Bool.false_or, hx h2c hh2,
        scanRets_cons, retHere_instr, Bool.false_or, hx h3c hh3,
        scanRets_cons, retHere_instr, Bool.false_or, hx h4c hh4, ihr]
    · rw [stFold_cons, s1, stFold_cons, s2, stFold_cons, hx h1c hh1,
        stFold_cons, hx h2c hh2, stFold_cons, hx h3c hh3, stFold_cons, hx h4c hh4, ihf]

theorem scanOK_string (o c : Char) (b : List Char) (hb : JStrBody b) :
    ScanOK o c ('"' :: b ++ ['"']) := by
  intro d q hd
  have hret : retHere o c ⟨d, false, false, q⟩ '"' = false := by simp [retHere]
  have hstep : stepSt o c ⟨d, false, false, q⟩ '"' = ⟨d, true, false, some '"'⟩ := by
    simp [stepSt]
  obtain ⟨hrb, hfb⟩ := scanStrBody o c hb d
  have hclose : stepSt o c ⟨d, true, false, some '"'⟩ '"' = ⟨d, false, false, some '"'⟩ := by
    simp [stepSt]
  constructor
  · show scanRets o c ⟨d, false, false, q⟩ ('"' :: (b ++ ['"'])) = false
    rw [scanRets_cons, hret, Bool.false_or, hstep, scanRets_append, hrb, Bool.false_or,
      hfb, scanRets_cons, retHere_instr, Bool.false_or, hclose, scanRets_nil]
  · refine ⟨some '"', ?_⟩
    show stFold o c ⟨d, false, false, q⟩ ('"' :: (b ++ ['"'])) = ⟨d, false, false, some '"'⟩
    rw [stFold_cons, hstep, stFold_append, hfb, stFold_cons, hclose, stFold_nil]

theorem dropWhile_digits_chars (l : List Char) :
    ∃ pre, l = pre ++ l.dropWhile isDigitC ∧ ∀ ch ∈ pre, numChar ch = true := by
  refine ⟨l.takeWhile isDigitC, (List.takeWhile_append_dropWhile _ _).symm, ?_⟩
  intro ch hch
  have hd := List.mem_takeWhile_imp hch
  simp [numChar, hd]

theorem numAfterSign_chars (s r : List Char) (h : numAfterSign s = some r) :
    ∃ pre, s = pre ++ r ∧ ∀ ch ∈ pre, numChar ch = true := by
  cases s with
  | nil => simp [numAfterSign] at h
  | cons ch rest =>
    simp only [numAfterSign] at h
    by_cases h0 : ch = '0'
    · rw [if_pos h0] at h
      obtain rfl : rest = r := Option.some_inj.mp h
      subst h0
      exact ⟨['0'], rfl, by decide⟩
    · rw [if_neg h0] at h
      by_cases h19 : '1' ≤ ch ∧ ch ≤ '9'
      · rw [if_pos h19] at h
        obtain rfl : rest.dropWhile isDigitC = r := Option.some_inj.mp h
        obtain ⟨pre', hpre', hall⟩ := dropWhile_digits_chars rest
        refine ⟨ch :: pre', by rw [List.cons_append, ← hpre'], ?_⟩
        intro x hx
        rcases List.mem_cons.mp hx with rfl | hx'
        · have hle : '0' ≤ x := le_trans (by decide) h19.1
          have hd : isDigitC x = true := by simp [isDigitC, hle, h19.2]
          simp [numChar, hd]
        · exact hall x hx'
      · rw [if_neg h19] at h
        cases h

theorem expDigits_chars (s r : List Char) (h : expDigits s = some r) :
    ∃ pre, s = pre ++ r ∧ ∀ ch ∈ pre, numChar ch = true := by
  cases s with
  | nil => cases h
  | cons d r' =>
    simp only [expDigits] at h
    by_cases hd : isDigitC d = true
    · rw [if_pos hd] at h
      obtain rfl : r'.dropWhile isDigitC = r := Option.some_inj.mp h
      obtain ⟨pre', hpre', hall⟩ := dropWhile_digits_chars r'
      refine ⟨d :: pre', by rw [List.cons_append, ← hpre'], ?_⟩
      intro x hx
      rcases List.mem_cons.mp hx with rfl | hx'
      · simp [numChar, hd]
      · exact hall x hx'
    · rw [if_neg hd] at h
      cases h

theorem optFrac_chars (s r : List Char) (h : optFrac s = some r) :
    ∃ pre, s = pre ++ r ∧ ∀ ch ∈ pre, numChar ch = true := by
  cases s with
  | nil =>
    simp only [optFrac] at h
    obtain rfl : ([] : List Char) = r := Option.some_inj.mp h
    exact ⟨[], rfl, by simp⟩
  | cons ch rest =>
    simp only [optFrac] at h
    by_cases hdot : ch = '.'
    · rw [if_pos hdot] at h
      obtain ⟨pre', hpre', hall⟩ := expDigits_chars _ _ h
      subst hdot
      refine ⟨'.' :: pre', by rw [List.cons_append, ← hpre'], ?_⟩
      intro x hx
      rcases List.mem_cons.mp hx with rfl | hx'
      · decide
      · exact hall x hx'
    · rw [if_neg hdot] at h
      obtain rfl : ch :: rest = r := Option.some_inj.mp h
      exact ⟨[], rfl, by simp⟩

theorem stripSign_chars (l : List Char) :
    ∃ pre, l = pre ++ stripSign l ∧ ∀ ch ∈ pre, numChar ch = true := by
  cases l with
  | nil => exact ⟨[], rfl, by simp⟩
  | cons s r =>
    simp only [stripSign]
    by_cases hs : s = '-'
    · rw [if_pos hs]
      refine ⟨[s], rfl, ?_⟩
      intro x hx
      rcases List.mem_singleton.mp hx with rfl
      subst hs
      decide
    · rw [if_neg hs]
      exact ⟨[], rfl, by simp⟩

theorem stripExpSign_chars (l : List Char) :
    ∃ pre, l = pre ++ stripExpSign l ∧ ∀ ch ∈ pre, numChar ch = true := by
  cases l with
  | nil => exact ⟨[], rfl, by simp⟩
  | cons s r =>
    simp only [stripExpSign]
    by_cases hs : s = '+' ∨ s = '-'
    · rw [if_pos hs]
      refine ⟨[s], rfl, ?_⟩
      intro x hx
      rcases List.mem_singleton.mp hx with rfl
      rcases hs with rfl | rfl <;> decide
    · rw [if_neg hs]
      exact ⟨[], rfl, by simp⟩

theorem optExp_chars (s r : List Char) (h : optExp s = some r) :
    ∃ pre, s = pre ++ r ∧ ∀ ch ∈ pre, numChar ch = true := by
  cases s with
  | nil =>
    simp only [optExp] at h
    obtain rfl : ([] : List Char) = r := Option.some_inj.mp h
    exact ⟨[], rfl, by simp⟩
  | cons ch rest =>
    simp only [optExp] at h
    by_cases he : ch = 'e' ∨ ch = 'E'
    · rw [if_pos he] at h
      obtain ⟨pre1, hp1, hall1⟩ := stripExpSign_chars rest
      obtain ⟨pre2, hp2, hall2⟩ := expDigits_chars _ _ h
      refine ⟨ch :: pre1 ++ pre2, ?_, ?_⟩
      · simp only [List.cons_append, List.append_assoc]
        rw [hp1, hp2]
      · intro x hx
        rcases List.mem_cons.mp hx with rfl | hx'
        · rcases he with rfl | rfl <;> decide
        rcases List.mem_append.mp hx' with hx1 | hx2
        · exact hall1 x hx1
        · exact hall2 x hx2
    · rw [if_neg he] at h
      obtain rfl : ch :: rest = r := Option.some_inj.mp h
      exact ⟨[], rfl, by simp⟩

theorem isJNumber_chars (s : List Char) (h : isJNumber s = true) :
    ∀ ch ∈ s, numChar ch = true := by
  unfold isJNumber at h
  cases hn : numAfterSign (stripSign s) with
  | none => rw [hn] at h; cases h
  | some r1 =>
    rw [hn] at h
    have h1 : (match optFrac r1 with
      | none => false
      | some r2 =>
        match optExp r2 with
        | none => false
        | some r3 => decide (r3 = [])) = true := h
    cases hf : optFrac r1 with
    | none => rw [hf] at h1; cases h1
    | some r2 =>
      rw [hf] at h1
      have h2 : (match optExp r2 with
        | none => false
        | some r3 => decide (r3 = [])) = true := h1
      cases he : optExp r2 with
      | none => rw [he] at h2; cases h2
      | some r3 =>
        rw [he] at h2
        have hr3 : r3 = [] := of_decide_eq_true h2
        subst hr3
        obtain ⟨p0, hp0, hall0⟩ := stripSign_chars s
        obtain ⟨p1, hp1, hall1⟩ := numAfterSign_chars _ _ hn
        obtain ⟨p2, hp2, hall2⟩ := optFrac_chars _ _ hf
        obtain ⟨p3, hp3, hall3⟩ := optExp_chars _ _ he
        intro ch hch
        rw [hp0, hp1, hp2, hp3] at hch
        simp only [List.append_nil, List.mem_append] at hch
        rcases hch with h0 | h1 | h2 | h3
        · exact hall0 ch h0
        · exact hall1 ch h1
        · exact hall2 ch h2
        · exact hall3 ch h3

theorem scanOK_num (o c : Char) (hoc : BracketPair o c) (s : List Char)
    (hs : isJNumber s = true) : ScanOK o c s :=
  scanOK_inert o c s
    (fun ch hch => inertB_of_numChar o c hoc ch (isJNumber_chars s hs ch hch))

theorem scanOK_same (o c : Char) (ho1 : o ≠ '"') (ho2 : o ≠ sq) (hc1 : c ≠ '"')
    (hc2 : c ≠ sq) (hne : o ≠ c) (inner : List Char) (hin : ScanOK o c inner) :
    ScanOK o c (o :: inner ++ [c]) := by
  intro d q hd
  have hret : retHere o c ⟨d, false, false, q⟩ o = false := by simp [retHere]
  have hstep : stepSt o c ⟨d, false, false, q⟩ o = ⟨d + 1, false, false, q⟩ := by
    simp [stepSt, ho1, ho2]
  obtain ⟨hrin, q2, hfin⟩ := hin (d + 1) q (by omega)
  have hretc : retHere o c ⟨d + 1, false, false, q2⟩ c = false := by
    have hd0 : ¬(d = (0 : Int)) := by omega
    simp [retHere, hc1, hc2, Ne.symm hne, hd0]
  have hstepc : stepSt o c ⟨d + 1, false, false, q2⟩ c = ⟨d, false, false, q2⟩ := by
    have hd1 : d + 1 - 1 = d := by ring
    simp [stepSt, hc1, hc2, Ne.symm hne, hd1]
  constructor
  · show scanRets o c ⟨d, false, false, q⟩ (o :: (inner ++ [c])) = false
    rw [scanRets_cons, hret, Bool.false_or, hstep, scanRets_append, hrin, Bool.false_or,
      hfin, scanRets_cons, hretc, Bool.false_or, scanRets_nil]
  · refine ⟨q2, ?_⟩
    show stFold o c ⟨d, false, false, q⟩ (o :: (inner ++ [c])) = ⟨d, false, false, q2⟩
    rw [stFold_cons, hstep, stFold_append, hfin, stFold_cons, hstepc, stFold_nil]

theorem scanOK_otherPair (o c ob cb : Char) (hob : inertB o c ob = true)
    (hcb : inertB o c cb = true) (inner : List Char) (hin : ScanOK o c inner) :
    ScanOK o c (ob :: inner ++ [cb]) :=
  scanOK_cons_inert o c ob _ hob
    (scanOK_append o c inner [cb] hin
      (scanOK_cons_inert o c cb [] hcb (scanOK_nil o c)))

theorem scanOK_brackets (o c : Char) (hoc : BracketPair o c) (ob cb : Char)
    (hpair : BracketPair ob cb) (inner : List Char) (hin : ScanOK o c inner) :
    ScanOK o c (ob :: inner ++ [cb]) := by
  rcases hoc with ⟨rfl, rfl⟩ | ⟨rfl, rfl⟩ <;> rcases hpair with ⟨rfl, rfl⟩ | ⟨rfl, rfl⟩
  · exact scanOK_same '[' ']' (by decide) (by decide) (by decide) (by decide) (by decide)
      inner hin
  · exact scanOK_otherPair '[' ']' '{' '}' (by decide) (by decide) inner hin
  · exact scanOK_otherPair '{' '}' '[' ']' (by decide) (by decide) inner hin
  · exact scanOK_same '{' '}' (by decide) (by decide) (by decide) (by decide) (by decide)
      inner hin

theorem jg_scan (o c : Char) (hoc : BracketPair o c) :
    ∀ {k : JK} {s : List Char}, JG k s → ScanOK o c s := by
  intro k s h
  have hcomma : inertB o c ',' = true := by
    rcases hoc with ⟨rfl, rfl⟩ | ⟨rfl, rfl⟩ <;> decide
  have hcolon : inertB o c ':' = true := by
    rcases hoc with ⟨rfl, rfl⟩ | ⟨rfl, rfl⟩ <;> decide
  induction h with
  | str b hb => exact scanOK_string o c b hb
  | num s hs => exact scanOK_num o c hoc s hs
  | tru =>
    refine scanOK_inert o c _ ?_
    rcases hoc with ⟨rfl, rfl⟩ | ⟨rfl, rfl⟩ <;> decide
  | fls =>
    refine scanOK_inert o c _ ?_
    rcases hoc with ⟨rfl, rfl⟩ | ⟨rfl, rfl⟩ <;> decide
  | nul =>
    refine scanOK_inert o c _ ?_
    rcases hoc with ⟨rfl, rfl⟩ | ⟨rfl, rfl⟩ <;> decide
  | arr0 w hw =>
    exact scanOK_brackets o c hoc '[' ']' (Or.inl ⟨rfl, rfl⟩) w (scanOK_ws o c hoc w hw)
  | arr s hs ih =>
    exact scanOK_brackets o c hoc '[' ']' (Or.inl ⟨rfl, rfl⟩) s ih
  | obj0 w hw =>
    exact scanOK_brackets o c hoc '{' '}' (Or.inr ⟨rfl, rfl⟩) w (scanOK_ws o c hoc w hw)
  | obj s hs ih =>
    exact scanOK_brackets o c hoc '{' '}' (Or.inr ⟨rfl, rfl⟩) s ih
  | elem1 w1 v w2 hw1 hv hw2 ihv =>
    exact scanOK_append o c _ _ (scanOK_ws o c hoc w1 hw1)
      (scanOK_append o c _ _ ihv (scanOK_ws o c hoc w2 hw2))
  | elemN w1 v w2 rest hw1 hv hw2 hrest ihv ihrest =>
    exact scanOK_append o c _ _ (scanOK_ws o c hoc w1 hw1)
      (scanOK_append o c _ _ ihv
        (scanOK_append o c _ _ (scanOK_ws o c hoc w2 hw2)
          (scanOK_cons_inert o c ',' rest hcomma ihrest)))
  | mem1 w1 b w2 w3 v w4 hw1 hb hw2 hw3 hv hw4 ihv =>
    exact scanOK_append o c _ _ (scanOK_ws o c hoc w1 hw1)
      (scanOK_append o c _ _ (scanOK_string o c b hb)
        (scanOK_append o c _ _ (scanOK_ws o c hoc w2 hw2)
          (scanOK_cons_inert o c ':' _ hcolon
            (scanOK_append o c _ _ (scanOK_ws o c hoc w3 hw3)
              (scanOK_append o c _ _ ihv (scanOK_ws o c hoc w4 hw4))))))
  | memN w1 b w2 w3 v w4 rest hw1 hb hw2 hw3 hv hw4 hrest ihv ihrest =>
    exact scanOK_append o c _ _ (scanOK_ws o c hoc w1 hw1)
      (scanOK_append o c _ _ (scanOK_string o c b hb)
        (scanOK_append o c _ _ (scanOK_ws o c hoc w2 hw2)
          (scanOK_cons_inert o c ':' _ hcolon
            (scanOK_append o c _ _ (scanOK_ws o c hoc w3 hw3)
              (scanOK_append o c _ _ ihv
                (scanOK_append o c _ _ (scanOK_ws o c hoc w4 hw4)
                  (scanOK_cons_inert o c ',' rest hcomma ihrest)))))))

/- ------------------------------------------------------------------ -/
/- Claim C1: assembly.                                                 -/
/- ------------------------------------------------------------------ -/

theorem scanFrom_value (o c : Char) (ho1 : o ≠ '"') (ho2 : o ≠ sq) (hc1 : c ≠ '"')
    (hc2 : c ≠ sq) (hne : o ≠ c) (inner post : List Char) (hin : ScanOK o c inner) :
    scanFrom o c initSt 0 ((o :: inner ++ [c]) ++ post) = some (inner.length + 1) := by
  have e1 : (o :: inner ++ [c]) ++ post = o :: (inner ++ (c :: post)) := by simp
  rw [e1]
  have hret0 : retHere o c initSt o = false := by simp [retHere]
  have hstep0 : stepSt o c initSt o = ⟨1, false, false, none⟩ := by
    simp [stepSt, initSt, ho1, ho2]
  rw [scanFrom_cons_noRet o c initSt 0 o _ hret0, hstep0]
  obtain ⟨hrin, q2, hfin⟩ := hin 1 none (le_refl 1)
  rw [scanFrom_append_noRets o c inner _ _ _ hrin, hfin]
  have hretc : retHere o c ⟨1, false, false, q2⟩ c = true := by
    simp [retHere, hc1, hc2, Ne.symm hne]
  rw [scanFrom_cons_ret o c _ _ c post hretc]
  congr 1
  omega

theorem pyFind_cons_self (target : Char) (l : List Char) :
    pyFind (target :: l) target = some 0 := by
  simp [pyFind]

theorem pyFind_append_of_not_mem (target : Char) :
    ∀ (pre l : List Char), (∀ ch ∈ pre, ch ≠ target) →
      pyFind (pre ++ l) target = (pyFind l target).map (· + pre.length) := by
  intro pre
  induction pre with
  | nil =>
    intro l _
    simp only [List.nil_append, List.length_nil]
    cases pyFind l target <;> simp
  | cons ch pre' ih =>
    intro l h
    rw [List.cons_append]
    simp only [pyFind]
    rw [if_neg (h ch (List.mem_cons_self _ _)),
      ih l (fun x hx => h x (List.mem_cons_of_mem _ hx))]
    cases pyFind l target with
    | none => simp
    | some a => simp [List.length_cons]; omega

theorem pyFind_eq_none (target : Char) :
    ∀ (l : List Char), (∀ ch ∈ l, ch ≠ target) → pyFind l target = none := by
  intro l
  induction l with
  | nil => intro _; rfl
  | cons ch rest ih =>
    intro h
    simp only [pyFind]
    rw [if_neg (h ch (List.mem_cons_self _ _)),
      ih (fun x hx => h x (List.mem_cons_of_mem _ hx))]
    rfl

theorem extract_balanced_block_none_find (text : List Char) (o c : Char)
    (h : pyFind text o = none) : extract_balanced_block text o c = none := by
  unfold extract_balanced_block
  rw [h]

theorem extract_balanced_value (o c : Char) (ho1 : o ≠ '"') (ho2 : o ≠ sq)
    (hc1 : c ≠ '"') (hc2 : c ≠ sq) (hne : o ≠ c) (pre inner post : List Char)
    (hpre : ∀ ch ∈ pre, ch ≠ o) (hin : ScanOK o c inner) :
    extract_balanced_block (pre ++ ((o :: inner ++ [c]) ++ post)) o c
      = some (o :: inner ++ [c]) := by
  have hv0 : pyFind ((o :: inner ++ [c]) ++ post) o = some 0 := by
    have e : (o :: inner ++ [c]) ++ post = o :: (inner ++ ([c] ++ post)) := by simp
    rw [e, pyFind_cons_self]
  have hfind : pyFind (pre ++ ((o :: inner ++ [c]) ++ post)) o = some pre.length := by
    rw [pyFind_append_of_not_mem o pre _ hpre, hv0]
    simp
  rw [extract_balanced_block_some_find _ o c pre.length hfind]
  have hdrop : (pre ++ ((o :: inner ++ [c]) ++ post)).drop pre.length
      = (o :: inner ++ [c]) ++ post := List.drop_left pre _
  rw [hdrop, scanFrom_value o c ho1 ho2 hc1 hc2 hne inner post hin]
  have hlen : (o :: inner ++ [c]).length = inner.length + 1 + 1 := by simp
  show some (((o :: inner ++ [c]) ++ post).take (inner.length + 1 + 1))
      = some (o :: inner ++ [c])
  rw [← hlen, List.take_left]

theorem pyLStrip_append_decomp (pre l : List Char)
    (hl : ∀ ch, l.head? = some ch → pyIsSpace ch = false) :
    ∃ pre2, pyLStrip (pre ++ l) = pre2 ++ l ∧ ∀ ch ∈ pre2, ch ∈ pre := by
  induction pre with
  | nil =>
    refine ⟨[], ?_, by simp⟩
    simp only [List.nil_append]
    show pyLStrip l = [] ++ l
    rw [List.nil_append]
    unfold pyLStrip
    cases l with
    | nil => rfl
    | cons ch r =>
      rw [List.dropWhile_cons, if_neg (by simp [hl ch rfl])]
  | cons ch pre' ih =>
    simp only [List.cons_append]
    show ∃ pre2, pyLStrip (ch :: (pre' ++ l)) = pre2 ++ l ∧ ∀ x ∈ pre2, x ∈ ch :: pre'
    unfold pyLStrip
    rw [List.dropWhile_cons]
    by_cases hch : pyIsSpace ch = true
    · rw [if_pos hch]
      obtain ⟨pre2, h1, h2⟩ := ih
      exact ⟨pre2, h1, fun x hx => List.mem_cons_of_mem _ (h2 x hx)⟩
    · rw [if_neg hch]
      exact ⟨ch :: pre', rfl, fun x hx => hx⟩

theorem stripSign_cons (ch : Char) (r : List Char) :
    stripSign (ch :: r) = if ch = '-' then r else ch :: r := rfl

theorem isJNumber_head (s : List Char) (h : isJNumber s = true) :
    ∃ ch r, s = ch :: r ∧ (ch = '-' ∨ isDigitC ch = true) := by
  cases s with
  | nil => exact absurd h (by decide)
  | cons ch r =>
    refine ⟨ch, r, rfl, ?_⟩
    by_cases hm : ch = '-'
    · exact Or.inl hm
    · right
      unfold isJNumber at h
      rw [stripSign_cons, if_neg hm] at h
      cases hn : numAfterSign (ch :: r) with
      | none => rw [hn] at h; cases h
      | some r1 =>
        simp only [numAfterSign] at hn
        by_cases h0 : ch = '0'
        · subst h0; decide
        · rw [if_neg h0] at hn
          by_cases h19 : '1' ≤ ch ∧ ch ≤ '9'
          · have hle : '0' ≤ ch := le_trans (by decide) h19.1
            simp [isDigitC, hle, h19.2]
          · rw [if_neg h19] at hn
            cases hn

theorem head?_cons_append (a : Char) (l m : List Char) :
    ((a :: l) ++ m).head? = some a := rfl

theorem jg_val_array_shape (v : List Char) (h : JG JK.val v)
    (hh : v.head? = some '[') :
    ∃ inner, v = '[' :: inner ++ [']'] ∧ (allWS inner = true ∨ JG JK.elems inner) := by
  cases h with
  | str b hb =>
    rw [head?_cons_append] at hh
    exact absurd (Option.some_inj.mp hh) (by decide)
  | num s hs =>
    obtain ⟨ch, r, rfl, hch⟩ := isJNumber_head _ hs
    simp only [List.head?_cons, Option.some_inj] at hh
    subst hh
    rcases hch with h1 | h1
    · exact absurd h1 (by decide)
    · exact absurd h1 (by decide)
  | tru => exact absurd hh (by decide)
  | fls => exact absurd hh (by decide)
  | nul => exact absurd hh (by decide)
  | arr0 w hw => exact ⟨w, rfl, Or.inl hw⟩
  | arr s hs => exact ⟨s, rfl, Or.inr hs⟩
  | obj0 w hw =>
    rw [head?_cons_append] at hh
    exact absurd (Option.some_inj.mp hh) (by decide)
  | obj s hs =>
    rw [head?_cons_append] at hh
    exact absurd (Option.some_inj.mp hh) (by decide)

theorem jg_val_object_shape (v : List Char) (h : JG JK.val v)
    (hh : v.head? = some '{') :
    ∃ inner, v = '{' :: inner ++ ['}'] ∧ (allWS inner = true ∨ JG JK.members inner) := by
  cases h with
  | str b hb =>
    rw [head?_cons_append] at hh
    exact absurd (Option.some_inj.mp hh) (by decide)
  | num s hs =>
    obtain ⟨ch, r, rfl, hch⟩ := isJNumber_head _ hs
    simp only [List.head?_cons, Option.some_inj] at hh
    subst hh
    rcases hch with h1 | h1
    · exact absurd h1 (by decide)
    · exact absurd h1 (by decide)
  | tru => exact absurd hh (by decide)
  | fls => exact absurd hh (by decide)
  | nul => exact absurd hh (by decide)
  | arr0 w hw =>
    rw [head?_cons_append] at hh
    exact absurd (Option.some_inj.mp hh) (by decide)
  | arr s hs =>
    rw [head?_cons_append] at hh
    exact absurd (Option.some_inj.mp hh) (by decide)
  | obj0 w hw => exact ⟨w, rfl, Or.inl hw⟩
  | obj s hs => exact ⟨s, rfl, Or.inr hs⟩

theorem extract_first_json_def (text : List Char) :
    extract_first_json text
      = match extract_balanced_block (pyLStrip (strip_code_fences text)) '[' ']' with
        | some s => some s
        | none => extract_balanced_block (pyLStrip (strip_code_fences text)) '{' '}' :=
  rfl

/-- C1 counterexample: the text consisting exactly of the single well-formed
top-level JSON object (here the only {...}/[...] value the text contains,
every other bracketed substring being nested inside it) is not returned by
the pipeline: because the array pass runs first, the nested array `[1]` is
extracted instead of the object. -/
theorem c1_counterexample :
    JG JK.val ['{', '"', 'a', '"', ':', '[', '1', ']', '}'] ∧
    extract_first_json ['{', '"', 'a', '"', ':', '[', '1', ']', '}']
      = some ['[', '1', ']'] ∧
    (['[', '1', ']'] : List Char) ≠ ['{', '"', 'a', '"', ':', '[', '1', ']', '}'] := by
  refine ⟨?_, by decide, by decide⟩
  have hb : JStrBody ['a'] :=
    JStrBody.plain 'a' [] (by decide) (by decide) (by decide) JStrBody.nil
  have harr : JG JK.val ['[', '1', ']'] := by
    have he : JG JK.elems ['1'] := by
      have h0 := JG.elem1 [] ['1'] [] rfl (JG.num ['1'] (by decide)) rfl
      simpa using h0
    have h1 := JG.arr ['1'] he
    simpa using h1
  have hm : JG JK.members ['"', 'a', '"', ':', '[', '1', ']'] := by
    have h0 := JG.mem1 [] ['a'] [] [] ['[', '1', ']'] [] rfl hb rfl rfl harr rfl
    simpa using h0
  have h1 := JG.obj _ hm
  simpa using h1

/-- C1 amended: the extractor is correct on texts where the other bracket
kind cannot interfere: for text = pre ++ v ++ post with no code fence, if v
is a well-formed JSON array and no '[' occurs in pre, or v is a well-formed
JSON object, no '{' occurs in pre and no '[' occurs anywhere in the text,
then the pipeline (fence stripping, then balanced-block extraction trying
array before object) returns exactly v. -/
theorem c1_extractor_amended (pre v post : List Char)
    (hnf : findFence (pre ++ (v ++ post)) = none)
    (hv : JG JK.val v)
    (hcase : (v.head? = some '[' ∧ ∀ ch ∈ pre, ch ≠ '[') ∨
             (v.head? = some '{' ∧ (∀ ch ∈ pre, ch ≠ '{') ∧
               ∀ ch ∈ pre ++ (v ++ post), ch ≠ '[')) :
    extract_first_json (pre ++ (v ++ post)) = some v := by
  have hstrip : strip_code_fences (pre ++ (v ++ post)) = pre ++ (v ++ post) :=
    strip_code_fences_of_fenceFree _ hnf
  rcases hcase with ⟨hh, hpre⟩ | ⟨hh, hpre, hnoarr⟩
  · obtain ⟨inner, rfl, hing⟩ := jg_val_array_shape v hv hh
    have hin : ScanOK '[' ']' inner := by
      rcases hing with hw | he
      · exact scanOK_ws '[' ']' (Or.inl ⟨rfl, rfl⟩) inner hw
      · exact jg_scan '[' ']' (Or.inl ⟨rfl, rfl⟩) he
    have hhead : ∀ ch, (('[' :: inner ++ [']']) ++ post).head? = some ch →
        pyIsSpace ch = false := by
      intro ch hch
      have h0 : (('[' :: inner ++ [']']) ++ post).head? = some '[' := rfl
      rw [h0] at hch
      obtain rfl : '[' = ch := Option.some_inj.mp hch
      decide
    obtain ⟨pre2, hcl, hsub⟩ :=
      pyLStrip_append_decomp pre (('[' :: inner ++ [']']) ++ post) hhead
    rw [extract_first_json_def, hstrip, hcl]
    have harr := extract_balanced_value '[' ']' (by decide) (by decide) (by decide)
      (by decide) (by decide) pre2 inner post (fun x hx => hpre x (hsub x hx)) hin
    rw [harr]
  · obtain ⟨inner, rfl, hing⟩ := jg_val_object_shape v hv hh
    have hin : ScanOK '{' '}' inner := by
      rcases hing with hw | he
      · exact scanOK_ws '{' '}' (Or.inr ⟨rfl, rfl⟩) inner hw
      · exact jg_scan '{' '}' (Or.inr ⟨rfl, rfl⟩) he
    have hhead : ∀ ch, (('{' :: inner ++ ['}']) ++ post).head? = some ch →
        pyIsSpace ch = false := by
      intro ch hch
      have h0 : (('{' :: inner ++ ['}']) ++ post).head? = some '{' := rfl
      rw [h0] at hch
      obtain rfl : '{' = ch := Option.some_inj.mp hch
      decide
    obtain ⟨pre2, hcl, hsub⟩ :=
      pyLStrip_append_decomp pre (('{' :: inner ++ ['}']) ++ post) hhead
    rw [extract_first_json_def, hstrip, hcl]
    have hnone : extract_balanced_block
        (pre2 ++ (('{' :: inner ++ ['}']) ++ post)) '[' ']' = none := by
      apply extract_balanced_block_none_find
      apply pyFind_eq_none
      intro x hx
      rcases List.mem_append.mp hx with hx1 | hx2
      · exact hnoarr x (List.mem_append.mpr (Or.inl (hsub x hx1)))
      · exact hnoarr x (List.mem_append.mpr (Or.inr hx2))
    rw [hnone]
    exact extract_balanced_value '{' '}' (by decide) (by decide) (by decide)
      (by decide) (by decide) pre2 inner post (fun x hx => hpre x (hsub x hx)) hin

theorem c1_extractor_amended_witness :
    extract_first_json ['x', '[', ']', 'y'] = some ['[', ']'] := by
  have hv : JG JK.val ['[', ']'] := by
    have h0 := JG.arr0 [] rfl
    simpa using h0
  have h := c1_extractor_amended ['x'] ['[', ']'] ['y'] (by decide) hv
    (Or.inl ⟨rfl, by decide⟩)
  simpa using h

end NoteWatcher
